import Mathlib

/-!
Verification development for the table-access and B-tree layer of the redb
embedded storage engine (`src/table.rs`).

The typed front end (`Table`, `ReadOnlyTable`, `ReadableTable`, `Drain`,
`RangeIter`, `pop_first`, `pop_last`) is translated from `src/table.rs`.
The B-tree engine (`Btree`/`BtreeMut`), the page store, and the owning
transaction are external collaborators whose code is not part of the
excerpt; they are modelled from the specification (sections 4.1, 4.2, 4.3,
5, 6 of spec.md), as noted on each definition.
-/

namespace Redb

/-- Raw key or value bytes, as stored in leaf pages. -/
abbrev Bytes := List Nat

/-- A key comparator over raw bytes (the pluggable `RedbKey::compare`). -/
abbrev Cmp := Bytes → Bytes → Ordering

/-- Byte-lexicographic comparison, the default `RedbKey::compare`
(`Vec<u8>::cmp`): elementwise, with a strict prefix ordered first. -/
def byteLexCmp : Cmp
  | [], [] => .eq
  | [], _ :: _ => .lt
  | _ :: _, [] => .gt
  | a :: as, b :: bs =>
    match compare a b with
    | .lt => .lt
    | .gt => .gt
    | .eq => byteLexCmp as bs

/-- The reversed comparator of the `custom_ordering` test:
`fn compare(data1, data2) { data2.cmp(data1) }`. -/
def reverseCmp : Cmp := fun a b => byteLexCmp b a

/-- Laws a total-order byte comparator satisfies; both `byteLexCmp` and
`reverseCmp` are proved lawful below. -/
structure LawfulCmp (cmp : Cmp) : Prop where
  refl : ∀ a, cmp a a = .eq
  lt_swap : ∀ a b, cmp a b = .lt ↔ cmp b a = .gt
  lt_trans : ∀ a b c, cmp a b = .lt → cmp b c = .lt → cmp a c = .lt
  eq_congr_left : ∀ a b c, cmp a b = .eq → cmp a c = cmp b c

/-- The contents of a tree snapshot: the leaf entries, in comparator
order. Spec section 3, "Tree": keys across the structure are strictly
increasing under the Codec's comparator. -/
abbrev Entries := List (Bytes × Bytes)

/-- The tree ordering invariant: keys strictly increase under `cmp`. -/
def SortedE (cmp : Cmp) (t : Entries) : Prop :=
  t.Pairwise (fun a b => cmp a.1 b.1 = .lt)

instance (cmp : Cmp) (t : Entries) : Decidable (SortedE cmp t) :=
  inferInstanceAs
    (Decidable (t.Pairwise (fun a b : Bytes × Bytes => cmp a.1 b.1 = Ordering.lt)))

/-- Modelled from the spec (section 4.1): Read B-Tree `get` — comparator
guided descent over the ordered entries, stopping early once the stored
key exceeds the probe. -/
def btreeGet (cmp : Cmp) (t : Entries) (k : Bytes) : Option Bytes :=
  match t with
  | [] => none
  | (k', v) :: rest =>
    match cmp k k' with
    | .lt => none
    | .eq => some v
    | .gt => btreeGet cmp rest k

/-- Modelled from the spec (section 4.1): `len()` — total leaf-entry
count, exact, not an estimate. -/
def btreeLen (t : Entries) : Nat := t.length

/-- One end of a range request: open, closed, or unbounded
(`RangeBounds`). -/
inductive Bound where
  | unbounded : Bound
  | included : Bytes → Bound
  | excluded : Bytes → Bound
deriving DecidableEq

/-- Whether key `k` is at or above the lower bound under `cmp`. -/
def aboveLower (cmp : Cmp) (lo : Bound) (k : Bytes) : Bool :=
  match lo with
  | .unbounded => true
  | .included b => !(cmp b k == .gt)
  | .excluded b => cmp b k == .lt

/-- Whether key `k` is at or below the upper bound under `cmp`. -/
def belowUpper (cmp : Cmp) (hi : Bound) (k : Bytes) : Bool :=
  match hi with
  | .unbounded => true
  | .included b => !(cmp k b == .gt)
  | .excluded b => cmp k b == .lt

/-- Whether key `k` lies inside the requested bounds. -/
def inBounds (cmp : Cmp) (lo hi : Bound) (k : Bytes) : Bool :=
  aboveLower cmp lo k && belowUpper cmp hi k

/-- Modelled from the spec (section 4.1): `range(bounds)` — the ordered
subsequence of entries whose keys fall inside the bounds; the
bidirectional cursor consumes this sequence from either end. -/
def btreeRange (cmp : Cmp) (t : Entries) (lo hi : Bound) : Entries :=
  t.filter (fun e => inBounds cmp lo hi e.1)

/-- Modelled from the spec (section 4.2): Mutable B-Tree `insert` —
comparator-guided descent to the insertion point; if the key exists its
old value is captured and returned while the entry is overwritten.
Returns the new entries and the previous value, if any. (The
copy-on-write page mechanics are modelled separately by `cowApply`.) -/
def btreeInsert (cmp : Cmp) (k v : Bytes) (t : Entries) : Entries × Option Bytes :=
  match t with
  | [] => ([(k, v)], none)
  | (k', v') :: rest =>
    match cmp k k' with
    | .lt => ((k, v) :: (k', v') :: rest, none)
    | .eq => ((k, v) :: rest, some v')
    | .gt =>
      ((k', v') :: (btreeInsert cmp k v rest).1, (btreeInsert cmp k v rest).2)

/-- Modelled from the spec (section 4.2): Mutable B-Tree `remove` —
descent plus deletion; returns the removed value as a guard, or none if
the key is absent. -/
def btreeRemove (cmp : Cmp) (k : Bytes) (t : Entries) : Entries × Option Bytes :=
  match t with
  | [] => ([], none)
  | (k', v') :: rest =>
    match cmp k k' with
    | .lt => ((k', v') :: rest, none)
    | .eq => (rest, some v')
    | .gt =>
      ((k', v') :: (btreeRemove cmp k rest).1, (btreeRemove cmp k rest).2)

/-- Modelled from the spec (section 4.2): `insert_reserve(key, length)` —
same descent as `insert`, but the value slot is `length` uninitialized
bytes (modelled as zeros) to be filled by the caller through the returned
mutable guard; the entry is logically present as soon as the call
returns. -/
def btreeInsertReserve (cmp : Cmp) (k : Bytes) (len : Nat) (t : Entries) :
    Entries × Option Bytes :=
  btreeInsert cmp k (List.replicate len 0) t

/-- Modelled from the spec (sections 4.2 and 4.3): the state of a live
`BtreeDrain` — the matching entries not yet produced, together with the
current tree contents. Producing an entry removes it from the tree at
that moment; dropping the state mid-way performs no further removal. -/
structure DrainState where
  pending : Entries
  tree : Entries
deriving DecidableEq

/-- Modelled from the spec (section 4.2): `drain(bounds)` positions the
lazy sequence over the entries inside the bounds, with the tree still
untouched. -/
def drainInit (cmp : Cmp) (lo hi : Bound) (t : Entries) : DrainState :=
  { pending := btreeRange cmp t lo hi, tree := t }

/-- Modelled from the spec (section 4.3): `Drain::next` — produce the
front pending entry and remove it from the tree as a side effect at that
moment. -/
def drainNext (cmp : Cmp) (s : DrainState) : Option ((Bytes × Bytes) × DrainState) :=
  match s.pending with
  | [] => none
  | e :: rest => some (e, { pending := rest, tree := (btreeRemove cmp e.1 s.tree).1 })

/-- Modelled from the spec (section 4.3): `Drain::next_back` — produce
the back pending entry and remove it from the tree at that moment. -/
def drainNextBack (cmp : Cmp) (s : DrainState) : Option ((Bytes × Bytes) × DrainState) :=
  match s.pending.getLast? with
  | none => none
  | some e =>
    some (e, { pending := s.pending.dropLast, tree := (btreeRemove cmp e.1 s.tree).1 })

/-- Consume the drain once from the chosen end (`true` = front via
`next`, `false` = back via `next_back`), keeping the state unchanged when
the sequence is exhausted. -/
def drainStep (cmp : Cmp) (d : Bool) (s : DrainState) : Option (Bytes × Bytes) × DrainState :=
  match (if d then drainNext cmp s else drainNextBack cmp s) with
  | none => (none, s)
  | some (e, s') => (some e, s')

/-- Consume the drain once per listed direction, collecting the produced
entries in production order. -/
def drainConsume (cmp : Cmp) (ds : List Bool) (s : DrainState) :
    List (Bytes × Bytes) × DrainState :=
  match ds with
  | [] => ([], s)
  | d :: rest =>
    ((drainStep cmp d s).1.toList ++ (drainConsume cmp rest (drainStep cmp d s).2).1,
     (drainConsume cmp rest (drainStep cmp d s).2).2)

/-! ### The typed front end, translated from `src/table.rs` -/

/-- A write-bound table handle (`Table` in `src/table.rs`): a name, a
reference to the owning write transaction (modelled as state passed
alongside), and the Mutable B-Tree contents plus the freed pages the
tree has accumulated. -/
structure TableH where
  name : String
  tree : Entries
  freedLocal : List Nat
deriving DecidableEq

/-- `Table::insert` (`src/table.rs` lines 90-103): delegates to
`self.tree.insert`, returning the old value if the key was present. -/
def TableH.insert (cmp : Cmp) (k v : Bytes) (h : TableH) : TableH × Option Bytes :=
  let (t', old) := btreeInsert cmp k v h.tree
  ({ h with tree := t' }, old)

/-- `Table::insert_reserve` (`src/table.rs` lines 108-120): delegates to
`self.tree.insert_reserve`. -/
def TableH.insertReserve (cmp : Cmp) (k : Bytes) (len : Nat) (h : TableH) :
    TableH × Option Bytes :=
  let (t', old) := btreeInsertReserve cmp k len h.tree
  ({ h with tree := t' }, old)

/-- `Table::remove` (`src/table.rs` lines 125-136): delegates to
`self.tree.remove`, returning the old value if the key was present. -/
def TableH.remove (cmp : Cmp) (k : Bytes) (h : TableH) : TableH × Option Bytes :=
  let (t', old) := btreeRemove cmp k h.tree
  ({ h with tree := t' }, old)

/-- `Table::drain` (`src/table.rs` lines 72-85): delegates to
`self.tree.drain(range)` and wraps the result in `Drain`. -/
def TableH.drain (cmp : Cmp) (lo hi : Bound) (h : TableH) : DrainState :=
  drainInit cmp lo hi h.tree

/-- `ReadableTable::get` for `Table` (`src/table.rs` lines 142-147):
delegates to `self.tree.get`. -/
def TableH.get (cmp : Cmp) (k : Bytes) (h : TableH) : Option Bytes :=
  btreeGet cmp h.tree k

/-- `ReadableTable::range` for `Table` (`src/table.rs` lines 149-155):
delegates to `self.tree.range`, wrapped in `RangeIter` (modelled as the
produced sequence of key/value pairs). -/
def TableH.range (cmp : Cmp) (lo hi : Bound) (h : TableH) : Entries :=
  btreeRange cmp h.tree lo hi

/-- `ReadableTable::len` for `Table` (`src/table.rs` lines 157-159):
delegates to `self.tree.len`. -/
def TableH.len (h : TableH) : Nat :=
  btreeLen h.tree

/-- `ReadableTable::is_empty` for `Table` (`src/table.rs` lines 161-163):
`self.len().map(|x| x == 0)`. -/
def TableH.isEmpty (h : TableH) : Bool :=
  h.len == 0

/-- `ReadableTable::iter` (`src/table.rs` lines 221-224): the default —
never overridden — method `self.range::<K::SelfType>(..)`, the range
over the full unbounded range. -/
def TableH.iter (cmp : Cmp) (h : TableH) : Entries :=
  h.range cmp .unbounded .unbounded

/-- `Table::pop_first` (`src/table.rs` lines 41-54), translated
step by step: take `self.iter()?.next()`; if an entry exists, copy its
key bytes through the key codec round trip `K::as_bytes(key.value())`
(modelled by `rt`, the composition of `from_bytes` then `as_bytes`),
drop the guard, `remove` by the owned key and `unwrap` the result.
`none` models the panic of that `unwrap`; `some (none, t)` is `Ok(None)`
on an empty table; `some (some (k, v), t)` is `Ok(Some(...))`. -/
def popFirst (cmp : Cmp) (rt : Bytes → Bytes) (h : TableH) :
    Option (Option (Bytes × Bytes) × TableH) :=
  match (h.iter cmp).head? with
  | none => some (none, h)
  | some (kBytes, _) =>
    let ownedKey := rt kBytes
    let (h', removed) := h.remove cmp ownedKey
    match removed with
    | none => none
    | some v => some (some (ownedKey, v), h')

/-- `Table::pop_last` (`src/table.rs` lines 57-70): identical to
`pop_first` except the scan is `self.iter()?.rev().next()`, the last
entry of the unbounded range. -/
def popLast (cmp : Cmp) (rt : Bytes → Bytes) (h : TableH) :
    Option (Option (Bytes × Bytes) × TableH) :=
  match (h.iter cmp).getLast? with
  | none => some (none, h)
  | some (kBytes, _) =>
    let ownedKey := rt kBytes
    let (h', removed) := h.remove cmp ownedKey
    match removed with
    | none => none
    | some v => some (some (ownedKey, v), h')

/-! ### Copy-on-write page model (spec sections 3, 5, 6) -/

/-- Modelled from the spec (sections 3 and 6): the Page Store — numbered
pages, each holding the serialized tree snapshot reachable from a root
at that page, and an allocation frontier; `allocate_page` hands out
fresh page numbers and never reuses a live one. -/
structure Store where
  pages : List (Nat × Entries)
  nextFree : Nat
deriving DecidableEq

/-- Store well-formedness: every allocated page number lies below the
allocation frontier, so freshly allocated numbers never collide. -/
def Store.wf (s : Store) : Prop :=
  ∀ p ∈ s.pages, p.1 < s.nextFree

/-- Modelled from the spec (section 4.1): opening a tree for reading
from an optional Root Pointer — absence of a root is a logically empty
table; a dangling page number is a corruption error (`none`). -/
def readRoot (s : Store) : Option Nat → Option Entries
  | none => some []
  | some p => s.pages.lookup p

/-- Modelled from the spec (section 5): one write-transaction-side tree:
its current root pointer and the Freed-Page Set accumulated so far. -/
structure Writer where
  root : Option Nat
  freed : List Nat
deriving DecidableEq

/-- A single writer mutation, abstracting the entry-level effect of
`insert`, `insert_reserve`, `remove`, or one drain production step. -/
inductive WriteOp where
  | ins (k v : Bytes) : WriteOp
  | reserve (k : Bytes) (len : Nat) : WriteOp
  | del (k : Bytes) : WriteOp
  | drainOne (k : Bytes) : WriteOp

/-- The entry-level effect of a writer mutation on the tree contents. -/
def applyOp (cmp : Cmp) (op : WriteOp) (t : Entries) : Entries :=
  match op with
  | .ins k v => (btreeInsert cmp k v t).1
  | .reserve k len => (btreeInsertReserve cmp k len t).1
  | .del k => (btreeRemove cmp k t).1
  | .drainOne k => (btreeRemove cmp k t).1

/-- Modelled from the spec (sections 4.2 and 5): the copy-on-write
discipline — a mutation writes the changed tree to a *new* page at the
allocation frontier, repoints the writer's root there, and defers the
old root page into the Freed-Page Set; it never modifies or unbinds any
existing page. -/
def cowApply (cmp : Cmp) (op : WriteOp) (s : Store) (w : Writer) : Store × Writer :=
  let cur := (readRoot s w.root).getD []
  let newEntries := applyOp cmp op cur
  ({ pages := (s.nextFree, newEntries) :: s.pages, nextFree := s.nextFree + 1 },
   { root := some s.nextFree, freed := w.root.toList ++ w.freed })

/-- A whole sequence of copy-on-write mutations by the writer. -/
def cowApplyAll (cmp : Cmp) (ops : List WriteOp) (s : Store) (w : Writer) :
    Store × Writer :=
  match ops with
  | [] => (s, w)
  | op :: rest =>
    cowApplyAll cmp rest (cowApply cmp op s w).1 (cowApply cmp op s w).2

/-- `ReadOnlyTable` (`src/table.rs` lines 228-269): holds only a Read
Tree opened over a Root Pointer; here its observations are functions of
the store and that fixed root. `ReadableTable::get` for
`ReadOnlyTable`. -/
def roGet (cmp : Cmp) (s : Store) (root : Option Nat) (k : Bytes) :
    Option (Option Bytes) :=
  (readRoot s root).map (fun es => btreeGet cmp es k)

/-- `ReadableTable::range` for `ReadOnlyTable` (`src/table.rs` lines
254-260): delegates to the Read Tree's range. -/
def roRange (cmp : Cmp) (s : Store) (root : Option Nat) (lo hi : Bound) :
    Option Entries :=
  (readRoot s root).map (fun es => btreeRange cmp es lo hi)

/-- `ReadableTable::len` for `ReadOnlyTable` (`src/table.rs` lines
262-264). -/
def roLen (s : Store) (root : Option Nat) : Option Nat :=
  (readRoot s root).map btreeLen

/-- `ReadableTable::is_empty` for `ReadOnlyTable` (`src/table.rs` lines
266-268): `self.len().map(|x| x == 0)`. -/
def roIsEmpty (s : Store) (root : Option Nat) : Option Bool :=
  (roLen s root).map (fun x => x == 0)

/-- `ReadableTable::iter` for `ReadOnlyTable` (`src/table.rs` lines
221-224): the derived default, range over the unbounded range. -/
def roIter (cmp : Cmp) (s : Store) (root : Option Nat) : Option Entries :=
  roRange cmp s root .unbounded .unbounded

/-! ### Owning-transaction registration model (spec sections 4.4, 6, 7) -/

/-- Modelled from the spec (sections 4.4 and 7): the transaction-side
bookkeeping the table layer interacts with — the set of names currently
registered open, the pending root reported per closed table, and the
transaction's freed pages. -/
structure TxnState where
  openTables : List String
  pendingRoots : List (String × Option Entries)
  freed : List Nat
deriving DecidableEq

/-- Outcome of `register_open_table(name)`. -/
inductive OpenResult where
  | ok (txn : TxnState) : OpenResult
  | tableAlreadyOpen : OpenResult
deriving DecidableEq

/-- Modelled from the spec (sections 6 and 7): `register_open_table` —
a second mutable handle requested for a name already registered open
returns `TableAlreadyOpen` immediately at open time; otherwise the name
is recorded open. -/
def registerOpen (name : String) (txn : TxnState) : OpenResult :=
  if name ∈ txn.openTables then .tableAlreadyOpen
  else .ok { txn with openTables := name :: txn.openTables }

/-- `impl Drop for Table` (`src/table.rs` lines 166-170) together with
the spec's `close_table(name, final_root_pointer_or_none, freed_pages)`
(sections 4.4 and 6): on destruction the handle reports the Mutable
Tree's current root — absence thereof if the table ended up empty — and
its freed pages to the owning transaction, and the name is unregistered
as open. -/
def closeTable (h : TableH) (txn : TxnState) : TxnState :=
  { openTables := txn.openTables.erase h.name,
    pendingRoots := (h.name, if h.tree.isEmpty then none else some h.tree) :: txn.pendingRoots,
    freed := txn.freed ++ h.freedLocal }

/-- A table operation paired with the owning transaction's state: the
operation acts on the handle alone (`src/table.rs`: every method touches
only `self.tree`), leaving the transaction untouched until drop. -/
def tableOpWithTxn (cmp : Cmp) (op : WriteOp) (h : TableH) (txn : TxnState) :
    (TableH × TxnState) :=
  match op with
  | .ins k v => ((h.insert cmp k v).1, txn)
  | .reserve k len => ((h.insertReserve cmp k len).1, txn)
  | .del k => ((h.remove cmp k).1, txn)
  | .drainOne k => ((h.remove cmp k).1, txn)

/-! ### Lawfulness of the two concrete comparators -/

theorem byteLexCmp_refl (a : Bytes) : byteLexCmp a a = .eq := by
  induction a with
  | nil => rfl
  | cons x xs ih => simp [byteLexCmp, Nat.compare_eq_eq.mpr rfl, ih]

theorem byteLexCmp_eq_iff (a b : Bytes) : byteLexCmp a b = .eq ↔ a = b := by
  induction a generalizing b with
  | nil => cases b <;> simp [byteLexCmp]
  | cons x xs ih =>
    cases b with
    | nil => simp [byteLexCmp]
    | cons y ys =>
      cases h : compare x y with
      | lt =>
        have hxy := Nat.compare_eq_lt.mp h
        simp [byteLexCmp, h]
        omega
      | gt =>
        have hxy := Nat.compare_eq_gt.mp h
        simp [byteLexCmp, h]
        omega
      | eq =>
        have hxy := Nat.compare_eq_eq.mp h
        subst hxy
        simp [byteLexCmp, h, ih]

theorem byteLexCmp_lt_iff_gt (a b : Bytes) :
    byteLexCmp a b = .lt ↔ byteLexCmp b a = .gt := by
  induction a generalizing b with
  | nil => cases b <;> simp [byteLexCmp]
  | cons x xs ih =>
    cases b with
    | nil => simp [byteLexCmp]
    | cons y ys =>
      cases h : compare x y with
      | lt =>
        have h' : compare y x = .gt := Nat.compare_eq_gt.mpr (Nat.compare_eq_lt.mp h)
        simp [byteLexCmp, h, h']
      | gt =>
        have h' : compare y x = .lt := Nat.compare_eq_lt.mpr (Nat.compare_eq_gt.mp h)
        simp [byteLexCmp, h, h']
      | eq =>
        have h' : compare y x = .eq := Nat.compare_eq_eq.mpr (Nat.compare_eq_eq.mp h).symm
        simp [byteLexCmp, h, h', ih]

theorem byteLexCmp_lt_trans {a b c : Bytes} (hab : byteLexCmp a b = .lt)
    (hbc : byteLexCmp b c = .lt) : byteLexCmp a c = .lt := by
  induction a generalizing b c with
  | nil =>
    cases b with
    | nil => simp [byteLexCmp] at hab
    | cons y ys =>
      cases c with
      | nil => simp [byteLexCmp] at hbc
      | cons z zs => simp [byteLexCmp]
  | cons x xs ih =>
    cases b with
    | nil => simp [byteLexCmp] at hab
    | cons y ys =>
      cases c with
      | nil => simp [byteLexCmp] at hbc
      | cons z zs =>
        cases hxy : compare x y with
        | gt => simp [byteLexCmp, hxy] at hab
        | lt =>
          cases hyz : compare y z with
          | gt => simp [byteLexCmp, hyz] at hbc
          | lt =>
            have : compare x z = .lt :=
              Nat.compare_eq_lt.mpr
                (Nat.lt_trans (Nat.compare_eq_lt.mp hxy) (Nat.compare_eq_lt.mp hyz))
            simp [byteLexCmp, this]
          | eq =>
            have hy := Nat.compare_eq_eq.mp hyz
            have : compare x z = .lt := by
              rw [← hy]; exact hxy
            simp [byteLexCmp, this]
        | eq =>
          have hx := Nat.compare_eq_eq.mp hxy
          cases hyz : compare y z with
          | gt => simp [byteLexCmp, hyz] at hbc
          | lt =>
            have : compare x z = .lt := by rw [hx]; exact hyz
            simp [byteLexCmp, this]
          | eq =>
            have hy := Nat.compare_eq_eq.mp hyz
            have hxz : compare x z = .eq := Nat.compare_eq_eq.mpr (hx.trans hy)
            simp only [byteLexCmp, hxy, hyz, hxz] at hab hbc ⊢
            exact ih hab hbc

theorem byteLexCmp_lawful : LawfulCmp byteLexCmp where
  refl := byteLexCmp_refl
  lt_swap := byteLexCmp_lt_iff_gt
  lt_trans := fun _ _ _ hab hbc => byteLexCmp_lt_trans hab hbc
  eq_congr_left := fun a b c hab => by
    rw [byteLexCmp_eq_iff] at hab; rw [hab]

theorem reverseCmp_lawful : LawfulCmp reverseCmp where
  refl := fun a => byteLexCmp_refl a
  lt_swap := fun a b => byteLexCmp_lt_iff_gt b a
  lt_trans := fun a b c hab hbc => byteLexCmp_lt_trans hbc hab
  eq_congr_left := fun a b c hab => by
    have : b = a := byteLexCmp_eq_iff b a |>.mp hab
    rw [this]

/-! ### Derived comparator facts -/

theorem LawfulCmp.gt_swap {cmp : Cmp} (hl : LawfulCmp cmp) (a b : Bytes) :
    cmp a b = .gt ↔ cmp b a = .lt :=
  (hl.lt_swap b a).symm

theorem LawfulCmp.eq_swap {cmp : Cmp} (hl : LawfulCmp cmp) {a b : Bytes}
    (h : cmp a b = .eq) : cmp b a = .eq := by
  cases hba : cmp b a with
  | lt => rw [(hl.lt_swap b a).mp hba] at h; exact absurd h (by simp)
  | gt => rw [(hl.gt_swap b a).mp hba] at h; exact absurd h (by simp)
  | eq => rfl

theorem LawfulCmp.eq_congr_right {cmp : Cmp} (hl : LawfulCmp cmp) {a b : Bytes}
    (h : cmp a b = .eq) (c : Bytes) : cmp c a = cmp c b := by
  cases hca : cmp c a with
  | lt =>
    have h1 : cmp a c = .gt := (hl.lt_swap c a).mp hca
    have h2 : cmp b c = .gt := (hl.eq_congr_left a b c h).symm.trans h1
    have h3 : cmp c b = .lt := (hl.gt_swap b c).mp h2
    rw [h3]
  | gt =>
    have h1 : cmp a c = .lt := (hl.gt_swap c a).mp hca
    have h2 : cmp b c = .lt := (hl.eq_congr_left a b c h).symm.trans h1
    have h3 : cmp c b = .gt := (hl.lt_swap b c).mp h2
    rw [h3]
  | eq =>
    have h1 : cmp a c = .eq := hl.eq_swap hca
    have h2 : cmp b c = .eq := (hl.eq_congr_left a b c h).symm.trans h1
    rw [hl.eq_swap h2]

/-! ### Core tree lemmas -/

theorem btreeGet_insert {cmp : Cmp} (hl : LawfulCmp cmp) (k v : Bytes) (t : Entries) :
    btreeGet cmp (btreeInsert cmp k v t).1 k = some v := by
  induction t with
  | nil => simp [btreeInsert, btreeGet, hl.refl]
  | cons e rest ih =>
    obtain ⟨k', v'⟩ := e
    cases h : cmp k k' with
    | lt => simp [btreeInsert, h, btreeGet, hl.refl]
    | eq => simp [btreeInsert, h, btreeGet, hl.refl]
    | gt => simp [btreeInsert, h, btreeGet, ih]

theorem iter_unbounded (cmp : Cmp) (h : TableH) : h.iter cmp = h.tree := by
  simp [TableH.iter, TableH.range, btreeRange, inBounds, aboveLower, belowUpper]

/-! ### Claim theorems -/

/-- Claim C5: after `insert(key, value)` succeeds with no intervening
remove of that key, `get(key)` on the same table returns a guard whose
decoded value equals the exact inserted value. -/
theorem insert_get_roundtrip (cmp : Cmp) (hl : LawfulCmp cmp) (h : TableH)
    (k v : Bytes) :
    TableH.get cmp k (TableH.insert cmp k v h).1 = some v := by
  simp only [TableH.get, TableH.insert]
  exact btreeGet_insert hl k v h.tree

/-- Witness for C5 at a concrete table, key and value. -/
theorem insert_get_roundtrip_witness :
    LawfulCmp byteLexCmp ∧
      TableH.get byteLexCmp [1] (TableH.insert byteLexCmp [1] [7] ⟨"t", [([0], [5])], []⟩).1
        = some [7] :=
  ⟨byteLexCmp_lawful,
   insert_get_roundtrip byteLexCmp byteLexCmp_lawful ⟨"t", [([0], [5])], []⟩ [1] [7]⟩

/-- Claim C3: on a table containing keys 1, 2, 3, `pop_first` returns
key 1 with its removed value and leaves 2 and 3; `pop_last` returns key 3
with its removed value and leaves 1 and 2; on an empty table both return
none (and neither path reaches the panic marker). -/
theorem pop_first_last_on_123 :
    popFirst byteLexCmp id ⟨"t", [([1], [10]), ([2], [20]), ([3], [30])], []⟩
        = some (some ([1], [10]), ⟨"t", [([2], [20]), ([3], [30])], []⟩) ∧
    popLast byteLexCmp id ⟨"t", [([1], [10]), ([2], [20]), ([3], [30])], []⟩
        = some (some ([3], [30]), ⟨"t", [([1], [10]), ([2], [20])], []⟩) ∧
    popFirst byteLexCmp id ⟨"t", [], []⟩ = some (none, ⟨"t", [], []⟩) ∧
    popLast byteLexCmp id ⟨"t", [], []⟩ = some (none, ⟨"t", [], []⟩) :=
  ⟨rfl, rfl, rfl, rfl⟩

/-- Claim C7: `insert`, `insert_reserve`, `remove`, `drain`, `get`,
`range`, `len`, and `is_empty` on a `Table` delegate directly to the
underlying Mutable Tree: each returns exactly the corresponding tree
operation's result on the tree the handle was constructed with. -/
theorem table_ops_delegate (cmp : Cmp) (h : TableH) (k v : Bytes) (len : Nat)
    (lo hi : Bound) :
    (TableH.insert cmp k v h).2 = (btreeInsert cmp k v h.tree).2 ∧
    (TableH.insert cmp k v h).1.tree = (btreeInsert cmp k v h.tree).1 ∧
    (TableH.insertReserve cmp k len h).2 = (btreeInsertReserve cmp k len h.tree).2 ∧
    (TableH.insertReserve cmp k len h).1.tree = (btreeInsertReserve cmp k len h.tree).1 ∧
    (TableH.remove cmp k h).2 = (btreeRemove cmp k h.tree).2 ∧
    (TableH.remove cmp k h).1.tree = (btreeRemove cmp k h.tree).1 ∧
    TableH.drain cmp lo hi h = drainInit cmp lo hi h.tree ∧
    TableH.get cmp k h = btreeGet cmp h.tree k ∧
    TableH.range cmp lo hi h = btreeRange cmp h.tree lo hi ∧
    TableH.len h = btreeLen h.tree ∧
    TableH.isEmpty h = (btreeLen h.tree == 0) :=
  ⟨rfl, rfl, rfl, rfl, rfl, rfl, rfl, rfl, rfl, rfl, rfl⟩

/-- Claim C8: `iter()` equals `range` over the unbounded range, for both
the write-bound `Table` and the `ReadOnlyTable`, as the derived (never
overridden) default method of the shared readable capability. -/
theorem iter_eq_range_unbounded (cmp : Cmp) (h : TableH) (s : Store)
    (root : Option Nat) :
    TableH.iter cmp h = TableH.range cmp .unbounded .unbounded h ∧
    roIter cmp s root = roRange cmp s root .unbounded .unbounded :=
  ⟨rfl, rfl⟩

/-- Claim C9: with the reversed-byte comparator, after inserting the ten
single-byte keys 0 through 9, the inclusive range from key 7 to key 3
(the lower bound under the reversed order) yields exactly the keys
7, 6, 5, 4, 3 in that order and then ends. -/
theorem custom_ordering_range :
    btreeRange reverseCmp
        ((List.range 10).foldl (fun acc i => (btreeInsert reverseCmp [i] [42] acc).1) [])
        (.included [7]) (.included [3])
      = [([7], [42]), ([6], [42]), ([5], [42]), ([4], [42]), ([3], [42])] :=
  rfl

theorem btreeRemove_append {cmp : Cmp} {k : Bytes} (e : Bytes × Bytes) (xs ys : Entries)
    (hgt : ∀ x ∈ xs, cmp k x.1 = .gt) (heq : cmp k e.1 = .eq) :
    btreeRemove cmp k (xs ++ e :: ys) = (xs ++ ys, some e.2) := by
  induction xs with
  | nil =>
    obtain ⟨k', v'⟩ := e
    simp only [List.nil_append]
    simp [btreeRemove, heq]
  | cons x rest ih =>
    obtain ⟨k', v'⟩ := x
    have hx : cmp k k' = .gt := hgt (k', v') (List.mem_cons_self _ _)
    have ih' := ih (fun y hy => hgt y (List.mem_cons_of_mem _ hy))
    simp only [List.cons_append]
    simp [btreeRemove, hx, ih']

/-- Claim C4: requesting a second mutable handle for a name registered
open in the current write transaction returns `TableAlreadyOpen`
immediately at open time, and after the first handle is closed,
re-opening that name succeeds. -/
theorem single_writer_enforcement (txn : TxnState) (h : TableH)
    (hnd : txn.openTables.Nodup) :
    (h.name ∈ txn.openTables → registerOpen h.name txn = .tableAlreadyOpen) ∧
    registerOpen h.name (closeTable h txn)
      = .ok { closeTable h txn with
              openTables := h.name :: (closeTable h txn).openTables } := by
  constructor
  · intro hmem
    simp [registerOpen, hmem]
  · have hnot : h.name ∉ (closeTable h txn).openTables := by
      simp only [closeTable]
      exact hnd.not_mem_erase
    simp [registerOpen, hnot]

/-- Witness for C4: a transaction with table name `x` open rejects a
second open of `x`, and accepts it again after the handle closes. -/
theorem single_writer_enforcement_witness :
    (["x"] : List String).Nodup ∧
    (registerOpen "x" ⟨["x"], [], []⟩ = .tableAlreadyOpen ∧
      registerOpen "x" (closeTable ⟨"x", [], []⟩ ⟨["x"], [], []⟩)
        = .ok { closeTable ⟨"x", [], []⟩ ⟨["x"], [], []⟩ with
                openTables :=
                  "x" :: (closeTable ⟨"x", [], []⟩ ⟨["x"], [], []⟩).openTables }) := by
  refine ⟨List.nodup_singleton _, ?_⟩
  have h := single_writer_enforcement ⟨["x"], [], []⟩ ⟨"x", [], []⟩ (List.nodup_singleton _)
  exact ⟨h.1 (List.mem_singleton.mpr rfl), h.2⟩

/-- Claim C6: table operations leave the owning transaction's state
untouched, and exactly at drop the handle's current root — or absence
thereof when the table ended up empty — and its freed pages are reported
through `close_table`, with the name unregistered as open. -/
theorem close_table_reports_on_drop (cmp : Cmp) (h : TableH) (txn : TxnState)
    (op : WriteOp) (hnd : txn.openTables.Nodup) :
    (tableOpWithTxn cmp op h txn).2 = txn ∧
    (closeTable h txn).pendingRoots.lookup h.name
      = some (if h.tree.isEmpty then none else some h.tree) ∧
    h.name ∉ (closeTable h txn).openTables ∧
    (closeTable h txn).freed = txn.freed ++ h.freedLocal := by
  refine ⟨?_, ?_, ?_, rfl⟩
  · cases op <;> rfl
  · simp [closeTable, List.lookup_cons]
  · simp only [closeTable]
    exact hnd.not_mem_erase

/-- Witness for C6 at a concrete handle and transaction. -/
theorem close_table_reports_on_drop_witness :
    (["x"] : List String).Nodup ∧
    ((tableOpWithTxn byteLexCmp (.ins [1] [2]) ⟨"x", [], []⟩ ⟨["x"], [], []⟩).2
        = ⟨["x"], [], []⟩ ∧
      (closeTable ⟨"x", [([1], [2])], [5]⟩ ⟨["x"], [], [4]⟩).pendingRoots.lookup "x"
        = some (if ([([1], [2])] : Entries).isEmpty then none else some [([1], [2])]) ∧
      "x" ∉ (closeTable ⟨"x", [([1], [2])], [5]⟩ ⟨["x"], [], [4]⟩).openTables ∧
      (closeTable ⟨"x", [([1], [2])], [5]⟩ ⟨["x"], [], [4]⟩).freed = [4] ++ [5]) := by
  refine ⟨List.nodup_singleton _, ?_, ?_⟩
  · exact (close_table_reports_on_drop byteLexCmp ⟨"x", [], []⟩ ⟨["x"], [], []⟩
      (.ins [1] [2]) (List.nodup_singleton _)).1
  · have h := close_table_reports_on_drop byteLexCmp ⟨"x", [([1], [2])], [5]⟩
      ⟨["x"], [], [4]⟩ (.ins [1] [2]) (List.nodup_singleton _)
    exact ⟨h.2.1, h.2.2.1, h.2.2.2⟩

/-- Claim C10: whenever `pop_first` (resp. `pop_last`) finds a first
(resp. last) entry, the subsequent `remove` — called with the key
rebuilt from an owned copy of that entry's key bytes through the key
codec round trip — returns a value, so the internal `unwrap` never
panics; this relies on the codec round trip preserving the key and on
the single-writer discipline (no interleaved mutation, reflected here by
the scan and the remove acting on one tree state). -/
theorem pop_unwrap_never_panics (cmp : Cmp) (hl : LawfulCmp cmp) (rt : Bytes → Bytes)
    (h : TableH) (hs : SortedE cmp h.tree)
    (hrt : ∀ k ∈ h.tree.map Prod.fst, rt k = k) :
    popFirst cmp rt h ≠ none ∧ popLast cmp rt h ≠ none := by
  constructor
  · cases ht : h.tree with
    | nil => simp [popFirst, iter_unbounded, ht]
    | cons e rest =>
      obtain ⟨k, v⟩ := e
      have hk : rt k = k := hrt k (by rw [ht]; simp)
      simp [popFirst, iter_unbounded, ht, hk, TableH.remove, btreeRemove, hl.refl]
  · cases hlast : h.tree.getLast? with
    | none =>
      have ht : h.tree = [] := List.getLast?_eq_none_iff.mp hlast
      simp [popLast, iter_unbounded, ht]
    | some e =>
      obtain ⟨ys, hys⟩ := List.getLast?_eq_some_iff.mp hlast
      have hk : rt e.1 = e.1 :=
        hrt e.1 (List.mem_map_of_mem _ (List.mem_of_getLast?_eq_some hlast))
      have hgt : ∀ x ∈ ys, cmp e.1 x.1 = .gt := by
        intro x hx
        have hpw : SortedE cmp (ys ++ [e]) := hys ▸ hs
        have hlt : cmp x.1 e.1 = .lt :=
          (List.pairwise_append.mp hpw).2.2 x hx e (by simp)
        exact (hl.lt_swap _ _).mp hlt
      have hrem : btreeRemove cmp e.1 h.tree = (ys, some e.2) := by
        rw [hys]
        have := btreeRemove_append e ys [] hgt (hl.refl e.1)
        simpa using this
      simp [popLast, iter_unbounded, hlast, hk, TableH.remove, hrem]

/-- Witness for C10: a concrete sorted one-entry table where both pops
avoid the panic path. -/
theorem pop_unwrap_never_panics_witness :
    LawfulCmp byteLexCmp ∧ SortedE byteLexCmp [([1], [2])] ∧
      (∀ k ∈ ([([1], [2])] : Entries).map Prod.fst, id k = k) ∧
      (popFirst byteLexCmp id ⟨"t", [([1], [2])], []⟩ ≠ none ∧
        popLast byteLexCmp id ⟨"t", [([1], [2])], []⟩ ≠ none) :=
  ⟨byteLexCmp_lawful, by simp [SortedE], by simp,
   pop_unwrap_never_panics byteLexCmp byteLexCmp_lawful id ⟨"t", [([1], [2])], []⟩
     (by simp [SortedE]) (by simp)⟩

theorem lookup_mem_keys {l : List (Nat × Entries)} {p : Nat} {e : Entries}
    (h : l.lookup p = some e) : ∃ q ∈ l, q.1 = p := by
  induction l with
  | nil => simp at h
  | cons a rest ih =>
    obtain ⟨a1, a2⟩ := a
    rw [List.lookup_cons] at h
    cases hb : p == a1 with
    | true =>
      exact ⟨(a1, a2), List.mem_cons_self _ _, (eq_of_beq hb).symm⟩
    | false =>
      rw [hb] at h
      obtain ⟨q, hq, hqp⟩ := ih h
      exact ⟨q, List.mem_cons_of_mem _ hq, hqp⟩

theorem lookup_cons_ne {l : List (Nat × Entries)} {p q : Nat} (e : Entries)
    (hne : p ≠ q) : ((q, e) :: l).lookup p = l.lookup p := by
  have hb : (p == q) = false := by
    simp [hne]
  rw [List.lookup_cons, hb]

theorem cowApply_preserves (cmp : Cmp) (op : WriteOp) (s : Store) (w : Writer)
    (hwf : s.wf) :
    (cowApply cmp op s w).1.wf ∧
    ∀ root e, readRoot s root = some e → readRoot (cowApply cmp op s w).1 root = some e := by
  constructor
  · intro q hq
    simp only [cowApply, List.mem_cons] at hq ⊢
    rcases hq with rfl | hq
    · exact Nat.lt_succ_self _
    · exact Nat.lt_succ_of_lt (hwf q hq)
  · intro root e hr
    cases root with
    | none => exact hr
    | some p =>
      simp only [readRoot] at hr ⊢
      obtain ⟨q, hq, hqp⟩ := lookup_mem_keys hr
      have hlt : p < s.nextFree := hqp ▸ hwf q hq
      simp only [cowApply]
      rw [lookup_cons_ne _ (Nat.ne_of_lt hlt)]
      exact hr

theorem cowApplyAll_preserves (cmp : Cmp) (ops : List WriteOp) (s : Store) (w : Writer)
    (hwf : s.wf) :
    (cowApplyAll cmp ops s w).1.wf ∧
    ∀ root e, readRoot s root = some e →
      readRoot (cowApplyAll cmp ops s w).1 root = some e := by
  induction ops generalizing s w with
  | nil => exact ⟨hwf, fun _ _ h => h⟩
  | cons op rest ih =>
    have h1 := cowApply_preserves cmp op s w hwf
    have h2 := ih (cowApply cmp op s w).1 (cowApply cmp op s w).2 h1.1
    exact ⟨h2.1, fun root e hr => h2.2 root e (h1.2 root e hr)⟩

/-- Claim C1: a `ReadOnlyTable` opened over a root pointer before a
write transaction performs mutations returns identical results from
`get`, `range`, `len`, `is_empty`, and `iter` before and after those
mutations, while the write transaction is still open — the writer's
copy-on-write inserts, reserves, removes, and drain steps only create
new pages and defer old ones to the Freed-Page Set, so the reader's
snapshot is untouched. -/
theorem reader_snapshot_isolation (cmp : Cmp) (ops : List WriteOp) (s : Store)
    (w : Writer) (root : Option Nat) (e : Entries) (hwf : s.wf)
    (hr : readRoot s root = some e) :
    (∀ k, roGet cmp (cowApplyAll cmp ops s w).1 root k = roGet cmp s root k) ∧
    (∀ lo hi, roRange cmp (cowApplyAll cmp ops s w).1 root lo hi
        = roRange cmp s root lo hi) ∧
    roLen (cowApplyAll cmp ops s w).1 root = roLen s root ∧
    roIsEmpty (cowApplyAll cmp ops s w).1 root = roIsEmpty s root ∧
    roIter cmp (cowApplyAll cmp ops s w).1 root = roIter cmp s root := by
  have hpres := (cowApplyAll_preserves cmp ops s w hwf).2 root e hr
  refine ⟨fun k => ?_, fun lo hi => ?_, ?_, ?_, ?_⟩ <;>
    simp [roGet, roRange, roLen, roIsEmpty, roIter, hpres, hr]

/-- Witness for C1: a concrete store with one page, a reader root over
it, and a writer performing an insert, a remove, and a drain step. -/
theorem reader_snapshot_isolation_witness :
    Store.wf ⟨[(0, [([1], [2])])], 1⟩ ∧
    readRoot ⟨[(0, [([1], [2])])], 1⟩ (some 0) = some [([1], [2])] ∧
    (∀ k, roGet byteLexCmp
        (cowApplyAll byteLexCmp [.ins [3] [4], .del [1], .drainOne [3]]
          ⟨[(0, [([1], [2])])], 1⟩ ⟨some 0, []⟩).1 (some 0) k
      = roGet byteLexCmp ⟨[(0, [([1], [2])])], 1⟩ (some 0) k) := by
  have hwf : Store.wf ⟨[(0, [([1], [2])])], 1⟩ := by
    intro q hq
    rw [List.mem_singleton] at hq
    subst hq
    decide
  refine ⟨hwf, rfl, ?_⟩
  exact (reader_snapshot_isolation byteLexCmp [.ins [3] [4], .del [1], .drainOne [3]]
    ⟨[(0, [([1], [2])])], 1⟩ ⟨some 0, []⟩ (some 0) [([1], [2])] hwf rfl).1

/-! ### Drain: laziness and partial consumption -/

theorem btreeRange_eq_filter (cmp : Cmp) (t : Entries) (lo hi : Bound) :
    btreeRange cmp t lo hi = t.filter (fun e => inBounds cmp lo hi e.1) := rfl

theorem filter_split {p : Bytes × Bytes → Bool} {t l r : Entries} {e : Bytes × Bytes}
    (h : t.filter p = l ++ e :: r) :
    ∃ xs ys, t = xs ++ e :: ys ∧ xs.filter p = l ∧ ys.filter p = r := by
  induction t generalizing l with
  | nil =>
    rw [List.filter_nil] at h
    exact absurd h.symm (by simp)
  | cons a t ih =>
    by_cases hp : p a
    · rw [List.filter_cons_of_pos hp] at h
      cases l with
      | nil =>
        rw [List.nil_append] at h
        simp only [List.cons.injEq] at h
        exact ⟨[], t, by rw [h.1, List.nil_append], rfl, h.2⟩
      | cons b l' =>
        rw [List.cons_append] at h
        simp only [List.cons.injEq] at h
        obtain ⟨xs, ys, h1, h2, h3⟩ := ih h.2
        exact ⟨a :: xs, ys, by rw [h1, List.cons_append],
          by rw [List.filter_cons_of_pos hp, h2, h.1], h3⟩
    · rw [List.filter_cons_of_neg hp] at h
      obtain ⟨xs, ys, h1, h2, h3⟩ := ih h
      exact ⟨a :: xs, ys, by rw [h1, List.cons_append],
        by rw [List.filter_cons_of_neg hp, h2], h3⟩

theorem btreeRemove_of_split {cmp : Cmp} (hl : LawfulCmp cmp) {xs ys : Entries}
    {e : Bytes × Bytes} (hs : SortedE cmp (xs ++ e :: ys)) :
    btreeRemove cmp e.1 (xs ++ e :: ys) = (xs ++ ys, some e.2) := by
  apply btreeRemove_append
  · intro x hx
    have hlt : cmp x.1 e.1 = .lt :=
      (List.pairwise_append.mp hs).2.2 x hx e (List.mem_cons_self _ _)
    exact (hl.lt_swap _ _).mp hlt
  · exact hl.refl e.1

/-- Invariant of a live drain: the tree stays sorted, the pending
entries are exactly the in-bounds entries still in the tree, the
out-of-bounds entries are untouched, and the tree remains an
order-preserving sublist of the original. -/
def DrainInv (cmp : Cmp) (lo hi : Bound) (t0 : Entries) (s : DrainState) : Prop :=
  SortedE cmp s.tree ∧
  s.pending = btreeRange cmp s.tree lo hi ∧
  s.tree.filter (fun e => !(inBounds cmp lo hi e.1))
    = t0.filter (fun e => !(inBounds cmp lo hi e.1)) ∧
  s.tree.Sublist t0

theorem drainInit_inv (cmp : Cmp) (lo hi : Bound) {t : Entries}
    (hs : SortedE cmp t) : DrainInv cmp lo hi t (drainInit cmp lo hi t) :=
  ⟨hs, rfl, rfl, List.Sublist.refl t⟩

theorem drainStep_front {cmp : Cmp} {s : DrainState} {e : Bytes × Bytes} {rest : Entries}
    (hp : s.pending = e :: rest) :
    (drainStep cmp true s).2 = ⟨rest, (btreeRemove cmp e.1 s.tree).1⟩ := by
  simp [drainStep, drainNext, hp]

theorem drainStep_front_empty {cmp : Cmp} {s : DrainState} (hp : s.pending = []) :
    (drainStep cmp true s).2 = s := by
  simp [drainStep, drainNext, hp]

theorem drainStep_back {cmp : Cmp} {s : DrainState} {e : Bytes × Bytes}
    (hlast : s.pending.getLast? = some e) :
    (drainStep cmp false s).2 = ⟨s.pending.dropLast, (btreeRemove cmp e.1 s.tree).1⟩ := by
  simp [drainStep, drainNextBack, hlast]

theorem drainStep_back_empty {cmp : Cmp} {s : DrainState}
    (hlast : s.pending.getLast? = none) :
    (drainStep cmp false s).2 = s := by
  simp [drainStep, drainNextBack, hlast]

theorem drainStep_pending (cmp : Cmp) (d : Bool) (s : DrainState) :
    (drainStep cmp d s).2.pending
      = if d then s.pending.tail else s.pending.dropLast := by
  cases d with
  | true =>
    cases hp : s.pending with
    | nil => rw [drainStep_front_empty hp]; simp [hp]
    | cons e rest => rw [drainStep_front hp]; simp [hp]
  | false =>
    cases hlast : s.pending.getLast? with
    | none =>
      rw [drainStep_back_empty hlast]
      simp [List.getLast?_eq_none_iff.mp hlast]
    | some e => rw [drainStep_back hlast]; simp

theorem drainStep_inv {cmp : Cmp} (hl : LawfulCmp cmp) {lo hi : Bound} {t0 : Entries}
    (d : Bool) {s : DrainState} (hinv : DrainInv cmp lo hi t0 s) :
    DrainInv cmp lo hi t0 (drainStep cmp d s).2 := by
  obtain ⟨hsort, hpend, hout, hsub⟩ := hinv
  cases d with
  | true =>
    cases hp : s.pending with
    | nil =>
      rw [drainStep_front_empty hp]
      exact ⟨hsort, hpend, hout, hsub⟩
    | cons e rest =>
      have hfil : s.tree.filter (fun x => inBounds cmp lo hi x.1) = [] ++ e :: rest := by
        rw [List.nil_append, ← btreeRange_eq_filter, ← hpend, hp]
      obtain ⟨xs, ys, hteq, hxs, hys⟩ := filter_split hfil
      have hpe : inBounds cmp lo hi e.1 = true := by
        have hmem : e ∈ s.tree.filter (fun x => inBounds cmp lo hi x.1) := by
          rw [hfil]; exact List.mem_cons_self _ _
        exact (List.mem_filter.mp hmem).2
      have hrem : btreeRemove cmp e.1 s.tree = (xs ++ ys, some e.2) := by
        rw [hteq]; exact btreeRemove_of_split hl (hteq ▸ hsort)
      have hstep : (xs ++ ys).Sublist s.tree := by
        rw [hteq]
        exact (List.sublist_cons_self e ys).append_left xs
      rw [drainStep_front hp, hrem]
      refine ⟨List.Pairwise.sublist hstep hsort, ?_, ?_, hstep.trans hsub⟩
      · show rest = btreeRange cmp (xs ++ ys) lo hi
        rw [btreeRange_eq_filter, List.filter_append, hxs, hys, List.nil_append]
      · show (xs ++ ys).filter (fun x => !(inBounds cmp lo hi x.1))
            = t0.filter (fun x => !(inBounds cmp lo hi x.1))
        rw [← hout, hteq, List.filter_append, List.filter_append,
          List.filter_cons_of_neg (by simp [hpe])]
  | false =>
    cases hlast : s.pending.getLast? with
    | none =>
      rw [drainStep_back_empty hlast]
      exact ⟨hsort, hpend, hout, hsub⟩
    | some e =>
      obtain ⟨init, hinit⟩ := List.getLast?_eq_some_iff.mp hlast
      have hfil : s.tree.filter (fun x => inBounds cmp lo hi x.1) = init ++ e :: [] := by
        rw [← btreeRange_eq_filter, ← hpend, hinit]
      obtain ⟨xs, ys, hteq, hxs, hys⟩ := filter_split hfil
      have hpe : inBounds cmp lo hi e.1 = true := by
        have hmem : e ∈ s.tree.filter (fun x => inBounds cmp lo hi x.1) := by
          rw [hfil]; simp
        exact (List.mem_filter.mp hmem).2
      have hrem : btreeRemove cmp e.1 s.tree = (xs ++ ys, some e.2) := by
        rw [hteq]; exact btreeRemove_of_split hl (hteq ▸ hsort)
      have hstep : (xs ++ ys).Sublist s.tree := by
        rw [hteq]
        exact (List.sublist_cons_self e ys).append_left xs
      rw [drainStep_back hlast, hrem]
      refine ⟨List.Pairwise.sublist hstep hsort, ?_, ?_, hstep.trans hsub⟩
      · show s.pending.dropLast = btreeRange cmp (xs ++ ys) lo hi
        rw [btreeRange_eq_filter, List.filter_append, hxs, hys, List.append_nil,
          hinit, List.dropLast_concat]
      · show (xs ++ ys).filter (fun x => !(inBounds cmp lo hi x.1))
            = t0.filter (fun x => !(inBounds cmp lo hi x.1))
        rw [← hout, hteq, List.filter_append, List.filter_append,
          List.filter_cons_of_neg (by simp [hpe])]

/-- Number of front-end (`next`) consumptions in a direction list. -/
def countTrue : List Bool → Nat
  | [] => 0
  | true :: r => countTrue r + 1
  | false :: r => countTrue r

theorem countTrue_le_length (ds : List Bool) : countTrue ds ≤ ds.length := by
  induction ds with
  | nil => simp [countTrue]
  | cons d r ih => cases d <;> simp [countTrue] <;> omega

theorem consume_fold_take_drop (ds : List Bool) (m : Entries)
    (hk : ds.length ≤ m.length) :
    ds.foldl (fun p d => if d then p.tail else p.dropLast) m
      = (m.drop (countTrue ds)).take (m.length - ds.length) := by
  induction ds generalizing m with
  | nil => simp [countTrue]
  | cons d rest ih =>
    cases d with
    | true =>
      have h1 : rest.length ≤ m.tail.length := by
        simp only [List.length_tail]
        simp only [List.length_cons] at hk
        omega
      have step : (true :: rest).foldl (fun p d => if d then p.tail else p.dropLast) m
          = rest.foldl (fun p d => if d then p.tail else p.dropLast) m.tail := rfl
      have harith1 : (1 : Nat) + countTrue rest = countTrue rest + 1 := by omega
      have harith2 : m.length - 1 - rest.length = m.length - (rest.length + 1) := by omega
      rw [step, ih m.tail h1, ← List.drop_one, List.drop_drop, List.length_drop,
        harith1, harith2]
      simp [countTrue]
    | false =>
      have h1 : rest.length ≤ m.dropLast.length := by
        simp only [List.length_dropLast]
        simp only [List.length_cons] at hk
        omega
      have step : (false :: rest).foldl (fun p d => if d then p.tail else p.dropLast) m
          = rest.foldl (fun p d => if d then p.tail else p.dropLast) m.dropLast := rfl
      have hc := countTrue_le_length rest
      rw [step, ih m.dropLast h1, List.length_dropLast, List.dropLast_eq_take,
        List.drop_take, List.take_take]
      simp only [countTrue, List.length_cons]
      congr 1
      simp only [List.length_cons] at hk
      omega

theorem drainConsume_state {cmp : Cmp} {lo hi : Bound} {t0 : Entries}
    (hl : LawfulCmp cmp) (ds : List Bool) {s : DrainState}
    (hinv : DrainInv cmp lo hi t0 s) :
    DrainInv cmp lo hi t0 (drainConsume cmp ds s).2 ∧
    (drainConsume cmp ds s).2.pending
      = ds.foldl (fun p d => if d then p.tail else p.dropLast) s.pending := by
  induction ds generalizing s with
  | nil => exact ⟨hinv, rfl⟩
  | cons d rest ih =>
    have h1 := drainStep_inv hl d hinv
    have h2 := drainStep_pending cmp d s
    have h3 := ih h1
    refine ⟨h3.1, ?_⟩
    show (drainConsume cmp rest (drainStep cmp d s).2).2.pending = _
    rw [List.foldl_cons, h3.2, h2]

/-- Claim C2: consuming exactly `k` of the `n` range-matching entries
from the Drain iterator — from either end, in any order — and then
dropping it leaves exactly the remaining `n - k` matching entries, in
their original key order, in the table; each removal happens at the
moment its entry is produced (unconsumed matching entries are still in
the tree), never eagerly for the whole range, and out-of-range entries
are untouched. -/
theorem drain_partial_consumption (cmp : Cmp) (hl : LawfulCmp cmp) (h : TableH)
    (lo hi : Bound) (ds : List Bool) (hs : SortedE cmp h.tree)
    (hk : ds.length ≤ (btreeRange cmp h.tree lo hi).length) :
    btreeRange cmp (drainConsume cmp ds (TableH.drain cmp lo hi h)).2.tree lo hi
      = ((btreeRange cmp h.tree lo hi).drop (countTrue ds)).take
          ((btreeRange cmp h.tree lo hi).length - ds.length) ∧
    (btreeRange cmp (drainConsume cmp ds (TableH.drain cmp lo hi h)).2.tree lo hi).length
      = (btreeRange cmp h.tree lo hi).length - ds.length ∧
    (drainConsume cmp ds (TableH.drain cmp lo hi h)).2.tree.filter
        (fun e => !(inBounds cmp lo hi e.1))
      = h.tree.filter (fun e => !(inBounds cmp lo hi e.1)) ∧
    (drainConsume cmp ds (TableH.drain cmp lo hi h)).2.tree.Sublist h.tree := by
  have hinv0 : DrainInv cmp lo hi h.tree (TableH.drain cmp lo hi h) :=
    drainInit_inv cmp lo hi hs
  obtain ⟨⟨hsort, hpend, hout, hsub⟩, hfold⟩ := drainConsume_state hl ds hinv0
  have hinitp : (TableH.drain cmp lo hi h).pending = btreeRange cmp h.tree lo hi := rfl
  have hrange : btreeRange cmp (drainConsume cmp ds (TableH.drain cmp lo hi h)).2.tree lo hi
      = ((btreeRange cmp h.tree lo hi).drop (countTrue ds)).take
          ((btreeRange cmp h.tree lo hi).length - ds.length) := by
    rw [← hpend, hfold, hinitp, consume_fold_take_drop ds _ hk]
  refine ⟨hrange, ?_, hout, hsub⟩
  rw [hrange]
  have hc := countTrue_le_length ds
  simp only [List.length_take, List.length_drop]
  omega

/-- Witness for C2: a four-entry table, range covering keys 1 to 3, one
front consumption and one back consumption; the middle matching entry
and the out-of-range entry remain. -/
theorem drain_partial_consumption_witness :
    LawfulCmp byteLexCmp ∧
    SortedE byteLexCmp [([1], [10]), ([2], [20]), ([3], [30]), ([4], [40])] ∧
    ([true, false] : List Bool).length
        ≤ (btreeRange byteLexCmp [([1], [10]), ([2], [20]), ([3], [30]), ([4], [40])]
            (.included [1]) (.included [3])).length ∧
    btreeRange byteLexCmp
        (drainConsume byteLexCmp [true, false]
          (TableH.drain byteLexCmp (.included [1]) (.included [3])
            ⟨"t", [([1], [10]), ([2], [20]), ([3], [30]), ([4], [40])], []⟩)).2.tree
        (.included [1]) (.included [3])
      = ((btreeRange byteLexCmp [([1], [10]), ([2], [20]), ([3], [30]), ([4], [40])]
            (.included [1]) (.included [3])).drop (countTrue [true, false])).take
          ((btreeRange byteLexCmp [([1], [10]), ([2], [20]), ([3], [30]), ([4], [40])]
              (.included [1]) (.included [3])).length - ([true, false] : List Bool).length) := by
  refine ⟨byteLexCmp_lawful, ?_, by decide, ?_⟩
  · decide
  · exact (drain_partial_consumption byteLexCmp byteLexCmp_lawful
      ⟨"t", [([1], [10]), ([2], [20]), ([3], [30]), ([4], [40])], []⟩
      (.included [1]) (.included [3]) [true, false] (by decide) (by decide)).1

end Redb
